import Mathlib

/-!
Verification of the retrieval-augmented query pipeline of the
latex-paper-feature-extractor repository (src/ai_agent_rag).

Strings are modelled as `List Char`.  Python slicing, `str.strip`,
decimal rendering of integers, and the specific regular-expression
substitutions used by the code are modelled explicitly.  Loops are
modelled with fuel counters so that every definition reduces inside the
kernel; each fuel argument is instantiated with a provably sufficient
bound.
-/

/-! ## Python string primitives -/

/-- The whitespace set used by Python's `str.strip` and by `\s` in `re`
patterns on `str` (ASCII whitespace, the C0 separators, and the Unicode
space characters). -/
def pyIsSpace (c : Char) : Bool :=
  c = ' ' || c = '\t' || c = '\n' || c = '\x0b' || c = '\x0c' || c = '\r' ||
  c = '\x1c' || c = '\x1d' || c = '\x1e' || c = '\x1f' || c = '\x85' ||
  c = '\xa0' || c = ' ' || c = ' ' || c = ' ' || c = ' ' ||
  c = ' ' || c = ' ' || c = ' ' || c = ' ' || c = ' ' ||
  c = ' ' || c = ' ' || c = ' ' || c = ' ' || c = ' ' ||
  c = ' ' || c = ' ' || c = '　'

/-- Python `str.strip()`: drop leading and trailing whitespace. -/
def pyStrip (l : List Char) : List Char :=
  ((l.dropWhile pyIsSpace).reverse.dropWhile pyIsSpace).reverse

/-- Effective index of a Python slice bound `i` for a sequence of length
`n`: negative indices count from the end, and the result is clamped to
`[0, n]`. -/
def pyidx (n : Nat) (i : Int) : Nat :=
  if 0 ≤ i then min i.toNat n else ((n : Int) + i).toNat

/-- Python slice `t[i:j]` (step 1). -/
def pyslice (t : List Char) (i j : Int) : List Char :=
  (t.take (pyidx t.length j)).drop (pyidx t.length i)

/-- Python `l[i]` for an arbitrary (possibly negative) index; `none`
models an `IndexError`. -/
def pyGetItem {α : Type} (l : List α) (i : Int) : Option α :=
  let j : Int := if i < 0 then (l.length : Int) + i else i
  if 0 ≤ j then l.get? j.toNat else none

/-! ## Chunker (`_chunk` in src/ai_agent_rag/src/rag.py) -/

def CHUNK_SIZE : Int := 1500

def CHUNK_OVERLAP : Int := 100

/-- One loop iteration's slice: `text[start : min(n, start+size)]`. -/
def window (t : List Char) (size : Int) (start : Nat) : List Char :=
  pyslice t (start : Int) (min (t.length : Int) ((start : Int) + size))

/-- The `while start < n` loop of `_chunk`, with fuel.  `step` is the
positive increment `size - overlap`; the caller supplies fuel at least
the remaining length, which suffices because each iteration advances
`start` by `step ≥ 1`. -/
def chunkFromFuel : Nat → List Char → Int → Nat → Nat → List (List Char)
  | 0, _, _, _, _ => []
  | f + 1, t, size, step, start =>
    if start < t.length then
      window t size start :: chunkFromFuel f t size step (start + step)
    else []

/-- `_chunk(text, size, overlap)`: raises `ValueError` when
`overlap >= size`, otherwise runs the sliding-window loop. -/
def pychunk (t : List Char) (size overlap : Int) : Except (List Char) (List (List Char)) :=
  if size ≤ overlap then
    .error ("Overlap must be smaller than chunk size".toList)
  else
    .ok (chunkFromFuel t.length t size (size - overlap).toNat 0)

/-! ## Document cleaning (`_read_docs` in src/ai_agent_rag/src/rag.py)

The four `re.sub` passes are modelled as explicit left-to-right scanners.
For each of the four patterns the regex engine's behaviour is
deterministic greedy scanning: at a match the scan resumes at the end of
the match, at a failure it resumes one character later. -/

/-- Attempt to match `[a-zA-Z]+\{[^}]*\}` at the head of `cs` (the part
of pattern 1 after the backslash); returns the remainder after the
closing brace on success. -/
def matchCmdBrace (cs : List Char) : Option (List Char) :=
  if (cs.head?.map Char.isAlpha).getD false then
    let r := cs.dropWhile Char.isAlpha
    if r.head? = some '\x7b' then
      let u := r.tail.dropWhile (fun d => !(d = '\x7d'))
      if u.head? = some '\x7d' then some u.tail else none
    else none
  else none

/-- Attempt to match `[a-zA-Z]+\*?` at the head of `cs` (the part of
pattern 2 after the backslash); returns the remainder on success. -/
def matchCmd (cs : List Char) : Option (List Char) :=
  if (cs.head?.map Char.isAlpha).getD false then
    let r := cs.dropWhile Char.isAlpha
    if r.head? = some '*' then some r.tail else some r
  else none

/-- `re.sub(r"\\[a-zA-Z]+\{[^}]*\}", "", _)`: remove commands with
braces. -/
def subCmdBrace : Nat → List Char → List Char
  | 0, _ => []
  | f + 1, l =>
    match l with
    | [] => []
    | c :: rest =>
      if c = '\\' then
        match matchCmdBrace rest with
        | some rest2 => subCmdBrace f rest2
        | none => c :: subCmdBrace f rest
      else c :: subCmdBrace f rest

/-- `re.sub(r"\\[a-zA-Z]+\*?", "", _)`: remove commands without
braces. -/
def subCmd : Nat → List Char → List Char
  | 0, _ => []
  | f + 1, l =>
    match l with
    | [] => []
    | c :: rest =>
      if c = '\\' then
        match matchCmd rest with
        | some rest2 => subCmd f rest2
        | none => c :: subCmd f rest
      else c :: subCmd f rest

/-- `re.sub(r"%.*", "", _)`: remove comments up to (not including) the
next newline. -/
def subComment : Nat → List Char → List Char
  | 0, _ => []
  | f + 1, l =>
    match l with
    | [] => []
    | c :: rest =>
      if c = '%' then subComment f (rest.dropWhile (fun d => !(d = '\n')))
      else c :: subComment f rest

/-- `re.sub(r"\s+", " ", _)`: collapse whitespace runs to single
spaces. -/
def subWs : Nat → List Char → List Char
  | 0, _ => []
  | f + 1, l =>
    match l with
    | [] => []
    | c :: rest =>
      if pyIsSpace c then ' ' :: subWs f (rest.dropWhile pyIsSpace)
      else c :: subWs f rest

/-- A control-sequence adjacency: a backslash immediately followed by
an ASCII letter. -/
def isCtrlPair (a b : Char) : Bool := a = '\\' && b.isAlpha

/-- A whitespace run of length at least two. -/
def isWsPair (a b : Char) : Bool := pyIsSpace a && pyIsSpace b

/-- Whether some adjacent pair of characters satisfies `p`. -/
def hasPair (p : Char → Char → Bool) : List Char → Bool
  | [] => false
  | [_] => false
  | a :: b :: t => p a b || hasPair p (b :: t)

/-- The full cleaning pipeline applied to one raw document. -/
def cleanText (raw : List Char) : List Char :=
  let a := subCmdBrace raw.length raw
  let b := subCmd a.length a
  let c := subComment b.length b
  pyStrip (subWs c.length c)

/-- `os.path.basename` for POSIX paths: the part after the last `/`. -/
def basenameL (p : List Char) : List Char :=
  (p.reverse.takeWhile (fun c => !(c = '/'))).reverse

/-- The root part of `os.path.splitext`: split at the last dot of the
basename, provided some character strictly before that dot is not a
dot (leading dots never start an extension). -/
def splitextRoot (b : List Char) : List Char :=
  match b.reverse.findIdx? (fun c => c = '.') with
  | none => b
  | some di =>
    let sepIndex := b.length - 1 - di
    if (b.take sepIndex).any (fun c => !(c = '.')) then b.take sepIndex else b

/-- Title of a document: filename without directory and extension. -/
def titleOf (p : List Char) : List Char :=
  splitextRoot (basenameL p)

/-- `_read_docs` applied to an already-globbed list of
(path, raw contents) pairs: derive the title and clean the text.
(The glob itself is filesystem input; its sorted file list is the
parameter here.) -/
def readDocs (files : List (List Char × List Char)) : List (List Char × List Char) :=
  files.map (fun pr => (titleOf pr.1, cleanText pr.2))

/-! ## Knowledge base construction (`KnowledgeBase.__init__`) -/

structure PaperChunk where
  text : List Char
  reference : List Char
deriving DecidableEq, Repr

/-- Little-endian decimal digits of `n`, with fuel (`n` itself is
enough fuel since `n / 10 < n` for `n ≥ 1`). -/
def digitsRevAux : Nat → Nat → List Nat
  | 0, _ => []
  | f + 1, n => if n = 0 then [] else n % 10 :: digitsRevAux f (n / 10)

/-- Python `str(n)` / `f"{n}"` for a natural number. -/
def pyStrNat (n : Nat) : List Char :=
  if n = 0 then ['0']
  else ((digitsRevAux n n).map (fun d => Char.ofNat (48 + d))).reverse

/-- The reference string `f"{title}, chunk {i}"` (with `i` already
1-based). -/
def mkRef (title : List Char) (i : Nat) : List Char :=
  title ++ ", chunk ".toList ++ pyStrNat i

/-- The chunks of one document's content, with the default size and
overlap used by `KnowledgeBase.__init__`.  The error branch is
unreachable because `CHUNK_OVERLAP < CHUNK_SIZE`. -/
def kbChunksOf (content : List Char) : List (List Char) :=
  match pychunk content CHUNK_SIZE CHUNK_OVERLAP with
  | .ok l => l
  | .error _ => []

/-- The `for i, ch in enumerate(chunks)` loop: tag each chunk with its
reference, `i` counting from the given offset. -/
def refChunks (title : List Char) : Nat → List (List Char) → List PaperChunk
  | _, [] => []
  | i, ch :: rest => ⟨ch, mkRef title (i + 1)⟩ :: refChunks title (i + 1) rest

/-- All entries accumulated over the documents, in document order. -/
def kbEntries (docs : List (List Char × List Char)) : List PaperChunk :=
  docs.flatMap (fun d => refChunks d.1 0 (kbChunksOf d.2))

/-- `KnowledgeBase.__init__` on a globbed file list: build the entries;
raise `RuntimeError` when no chunks were created. -/
def kbInit (files : List (List Char × List Char)) : Except (List Char) (List PaperChunk) :=
  let entries := kbEntries (readDocs files)
  if entries.isEmpty then
    .error ("No text chunks were created. Check if .tex files are being copied correctly.".toList)
  else .ok entries

/-! ## Retrieval (`KnowledgeBase.retrieve`)

The embedding model is treated as an external capability; what `retrieve` does with the index
output is modelled exactly.  `faiss.IndexFlatIP.search(q, k)` returns
exactly `k` labels per query: the indices of the stored vectors in
descending inner-product order, padded with `-1` when `k` exceeds the
number of stored vectors (documented FAISS behaviour).  The
similarity-induced ordering is abstracted as `ranking`, the full
argsort of the corpus. -/

def faissSearch (ranking : List Nat) (k : Nat) : List Int :=
  (ranking.take k).map (fun n => (n : Int)) ++ List.replicate (k - ranking.length) (-1)

/-- The result loop of `retrieve`: `entries[int(i)]` for each returned
label; `none` models an `IndexError`. -/
def kbRetrieve (entries : List PaperChunk) (ranking : List Nat) (k : Nat) :
    Option (List PaperChunk) :=
  (faissSearch ranking k).mapM (fun i => pyGetItem entries i)

/-! ## Prompt builder (`build_prompt` in src/ai_agent_rag/src/mcp.py) -/

def roleText : List Char :=
  ("You are an advanced research assistant trained to read and interpret scientific papers written in LaTeX. You will be given text excerpts (chunks) from one or more papers. Your job is to answer the question with as much detail and scientific accuracy as possible.").toList

def taskText : List Char :=
  ("Using ONLY the provided context, answer the user\x27s question in a thorough, well-reasoned, and scientific manner. If the context does not directly answer the question, you MUST still attempt to infer the most likely conclusion based on what IS present. NEVER reply with \x27Not enough information\x27 or similar phrases. Instead, explain what the text *does* discuss and how it might relate to the question. If relevant, summarize how the paper approaches the topic even indirectly. Your response should read like a detailed explanation from a graduate-level research assistant.").toList

def schemaText : List Char :=
  ("\x7b\n  \"answer\": \"A detailed explanation of the conclusion, result, or best related insight from the context, including reasoning and context references.\",\n  \"references\": [\"List of chunk references or paper identifiers that support your answer.\"]\n\x7d").toList

/-- One rendered context entry:
`f"---\nSOURCE: {reference}\nCONTENT:\n\"{text}\"\n---"`. -/
def ctxLine (c : PaperChunk) : List Char :=
  "---\nSOURCE: ".toList ++ c.reference ++ "\nCONTENT:\n\"".toList ++ c.text ++
    "\"\n---".toList

/-- Python `sep.join(parts)`. -/
def joinSep (sep : List Char) : List (List Char) → List Char
  | [] => []
  | [x] => x
  | x :: y :: xs => x ++ sep ++ joinSep sep (y :: xs)

/-- `build_prompt(query, retrieved_chunks)`: the context lines are
accumulated by the `for` loop, joined with blank lines, and embedded in
the final f-string. -/
def build_prompt (query : List Char) (chunks : List PaperChunk) : List Char :=
  let contextLines := chunks.foldl (fun acc c => acc ++ [ctxLine c]) []
  let context := joinSep ("\n\n".toList) contextLines
  roleText ++ "\n\n<context>\n".toList ++ context ++ "\n</context>\n\n<task>\n".toList ++
    taskText ++ "\n".toList ++ schemaText ++ "\n</task>\n\n<query>\n".toList ++ query ++
    "\n</query>".toList

/-! ## JSON values and `json.loads` (stdlib dependency of src/llm.py)

A value model of Python's `json.loads` on strict RFC 8259 input plus the
`NaN`/`Infinity`/`-Infinity` extensions Python accepts.  Numbers are
kept as raw tokens (no claim inspects numeric values).  The parser is
fuel-indexed; `2 * length + 8` fuel is ample since between two
fuel-consuming steps at least one input character is consumed. -/

inductive Json where
  | null
  | bool (b : Bool)
  | num (raw : List Char)
  | str (s : List Char)
  | arr (elems : List Json)
  | obj (fields : List (List Char × Json))

def jsonWs (c : Char) : Bool :=
  c = ' ' || c = '\t' || c = '\n' || c = '\r'

def skipJWs (cs : List Char) : List Char := cs.dropWhile jsonWs

def isDigitCh (c : Char) : Bool := 48 ≤ c.toNat && c.toNat ≤ 57

def parseHexDigit (c : Char) : Option Nat :=
  if 48 ≤ c.toNat && c.toNat ≤ 57 then some (c.toNat - 48)
  else if 97 ≤ c.toNat && c.toNat ≤ 102 then some (c.toNat - 87)
  else if 65 ≤ c.toNat && c.toNat ≤ 70 then some (c.toNat - 55)
  else none

/-- Scan a JSON string body (after the opening quote); returns the
decoded characters and the remainder after the closing quote. -/
def parseStrAux : List Char → List Char → Except (List Char) (List Char × List Char)
  | _, [] => .error ("Unterminated string".toList)
  | acc, '"' :: r => .ok (acc.reverse, r)
  | acc, '\\' :: 'u' :: a :: b :: c :: d :: r =>
    match parseHexDigit a, parseHexDigit b, parseHexDigit c, parseHexDigit d with
    | some x, some y, some z, some w =>
      parseStrAux (Char.ofNat (4096 * x + 256 * y + 16 * z + w) :: acc) r
    | _, _, _, _ => .error ("Invalid hex escape".toList)
  | acc, '\\' :: e :: r =>
    if e = '"' then parseStrAux ('"' :: acc) r
    else if e = '\\' then parseStrAux ('\\' :: acc) r
    else if e = '/' then parseStrAux ('/' :: acc) r
    else if e = 'b' then parseStrAux ('\x08' :: acc) r
    else if e = 'f' then parseStrAux ('\x0c' :: acc) r
    else if e = 'n' then parseStrAux ('\n' :: acc) r
    else if e = 'r' then parseStrAux ('\r' :: acc) r
    else if e = 't' then parseStrAux ('\t' :: acc) r
    else .error ("Invalid escape".toList)
  | _, ['\\'] => .error ("Unterminated string".toList)
  | acc, c :: r =>
    if c.toNat < 32 then .error ("Invalid control character".toList)
    else parseStrAux (c :: acc) r

def spanDigits (cs : List Char) : List Char × List Char :=
  (cs.takeWhile isDigitCh, cs.dropWhile isDigitCh)

/-- Optional fraction part `\.\d+`. -/
def numFrac (cs : List Char) : List Char × List Char :=
  match cs with
  | '.' :: t =>
    match spanDigits t with
    | ([], _) => ([], cs)
    | (ds, t2) => ('.' :: ds, t2)
  | _ => ([], cs)

/-- Optional exponent part `[eE][-+]?\d+`. -/
def numExp (cs : List Char) : List Char × List Char :=
  match cs with
  | c :: t =>
    if c = 'e' || c = 'E' then
      let st :=
        match t with
        | '+' :: u => (['+'], u)
        | '-' :: u => (['-'], u)
        | _ => (([] : List Char), t)
      match spanDigits st.2 with
      | ([], _) => ([], cs)
      | (ds, t3) => (c :: (st.1 ++ ds), t3)
    else ([], cs)
  | [] => ([], cs)

/-- The number token regex `(-?(?:0|[1-9]\d*))(\.\d+)?([eE][-+]?\d+)?`
of Python's json scanner; returns the token and the remainder. -/
def parseNum (cs : List Char) : Option (List Char × List Char) :=
  let sp : List Char × List Char :=
    match cs with
    | '-' :: t => (['-'], t)
    | _ => ([], cs)
  match sp.2 with
  | '0' :: t =>
    let fr := numFrac t
    let ex := numExp fr.2
    some (sp.1 ++ ['0'] ++ fr.1 ++ ex.1, ex.2)
  | c :: _ =>
    if isDigitCh c then
      let ip := spanDigits sp.2
      let fr := numFrac ip.2
      let ex := numExp fr.2
      some (sp.1 ++ ip.1 ++ fr.1 ++ ex.1, ex.2)
    else none
  | [] => none

inductive PMode where
  | val
  | arrStart
  | arrNext (acc : List Json)
  | objStart
  | objNext (acc : List (List Char × Json))

def parseStep : Nat → PMode → List Char → Except (List Char) (Json × List Char)
  | 0, _, _ => .error ("Nesting too deep".toList)
  | f + 1, .val, cs =>
    match skipJWs cs with
    | [] => .error ("Expecting value".toList)
    | c :: rest =>
      if c = '\x7b' then parseStep f .objStart rest
      else if c = '[' then parseStep f .arrStart rest
      else if c = '"' then
        match parseStrAux [] rest with
        | .ok (s, r) => .ok (.str s, r)
        | .error e => .error e
      else if c = 't' then
        match rest with
        | 'r' :: 'u' :: 'e' :: r => .ok (.bool true, r)
        | _ => .error ("Expecting value".toList)
      else if c = 'f' then
        match rest with
        | 'a' :: 'l' :: 's' :: 'e' :: r => .ok (.bool false, r)
        | _ => .error ("Expecting value".toList)
      else if c = 'n' then
        match rest with
        | 'u' :: 'l' :: 'l' :: r => .ok (.null, r)
        | _ => .error ("Expecting value".toList)
      else if c = 'N' then
        match rest with
        | 'a' :: 'N' :: r => .ok (.num ("NaN".toList), r)
        | _ => .error ("Expecting value".toList)
      else if c = 'I' then
        match rest with
        | 'n' :: 'f' :: 'i' :: 'n' :: 'i' :: 't' :: 'y' :: r =>
          .ok (.num ("Infinity".toList), r)
        | _ => .error ("Expecting value".toList)
      else if c = '-' then
        match rest with
        | 'I' :: 'n' :: 'f' :: 'i' :: 'n' :: 'i' :: 't' :: 'y' :: r =>
          .ok (.num ("-Infinity".toList), r)
        | _ =>
          match parseNum (c :: rest) with
          | some (tok, r) => .ok (.num tok, r)
          | none => .error ("Expecting value".toList)
      else
        match parseNum (c :: rest) with
        | some (tok, r) => .ok (.num tok, r)
        | none => .error ("Expecting value".toList)
  | f + 1, .arrStart, cs =>
    match skipJWs cs with
    | ']' :: r => .ok (.arr [], r)
    | cs2 =>
      match parseStep f .val cs2 with
      | .ok (v, r) => parseStep f (.arrNext [v]) r
      | .error e => .error e
  | f + 1, .arrNext acc, cs =>
    match skipJWs cs with
    | ',' :: r =>
      match parseStep f .val r with
      | .ok (v, r2) => parseStep f (.arrNext (v :: acc)) r2
      | .error e => .error e
    | ']' :: r => .ok (.arr acc.reverse, r)
    | _ => .error ("Expecting delimiter".toList)
  | f + 1, .objStart, cs =>
    match skipJWs cs with
    | '\x7d' :: r => .ok (.obj [], r)
    | '"' :: r =>
      match parseStrAux [] r with
      | .error e => .error e
      | .ok (k, r2) =>
        match skipJWs r2 with
        | ':' :: r3 =>
          match parseStep f .val r3 with
          | .ok (v, r4) => parseStep f (.objNext [(k, v)]) r4
          | .error e => .error e
        | _ => .error ("Expecting colon delimiter".toList)
    | _ => .error ("Expecting property name".toList)
  | f + 1, .objNext acc, cs =>
    match skipJWs cs with
    | ',' :: r =>
      match skipJWs r with
      | '"' :: r1 =>
        match parseStrAux [] r1 with
        | .error e => .error e
        | .ok (k, r2) =>
          match skipJWs r2 with
          | ':' :: r3 =>
            match parseStep f .val r3 with
            | .ok (v, r4) => parseStep f (.objNext ((k, v) :: acc)) r4
            | .error e => .error e
          | _ => .error ("Expecting colon delimiter".toList)
      | _ => .error ("Expecting property name".toList)
    | '\x7d' :: r => .ok (.obj acc.reverse, r)
    | _ => .error ("Expecting delimiter".toList)

/-- `json.loads`: parse one value and require only whitespace after. -/
def pyJsonLoads (cs : List Char) : Except (List Char) Json :=
  match parseStep (2 * cs.length + 8) .val cs with
  | .ok (v, rest) =>
    if (skipJWs rest).isEmpty then .ok v else .error ("Extra data".toList)
  | .error e => .error e

/-! ## Structured generation client (src/ai_agent_rag/src/llm.py) -/

/-- The fence-stripping `re.sub(r"^```(?:json)?\s*|\s*```$", "", text)`
applied to an already-stripped text: remove a leading fence (with an
optional `json` tag and following whitespace) and a trailing fence
(with preceding whitespace). -/
def stripFences (s : List Char) : List Char :=
  let s1 :=
    if s.take 3 = "```".toList then
      let r := s.drop 3
      let r2 := if r.take 4 = "json".toList then r.drop 4 else r
      r2.dropWhile pyIsSpace
    else s
  if s1.reverse.take 3 = "```".toList then
    ((s1.reverse.drop 3).dropWhile pyIsSpace).reverse
  else s1

/-- Whether `"```" in text` holds. -/
def containsTicks : List Char → Bool
  | '`' :: '`' :: '`' :: _ => true
  | _ :: rest => containsTicks rest
  | [] => false

/-- `_strip_to_json(text)`: strip Markdown fences when backticks are
present, then cut from the first `\x7b` to the last `\x7d` when that
range is nonempty. -/
def stripToJson (text : List Char) : List Char :=
  let t := if containsTicks text then stripFences (pyStrip text) else text
  match t.findIdx? (fun c => c = '\x7b'), t.reverse.findIdx? (fun c => c = '\x7d') with
  | some s, some dj =>
    let e := t.length - 1 - dj
    if s < e then pyslice t (s : Int) ((e : Int) + 1) else t
  | _, _ => t

structure QueryResponse where
  answer : List Char
  references : List (List Char)
deriving DecidableEq, Repr

/-- Python dict construction keeps the last duplicate key. -/
def jLookup (key : List Char) (fields : List (List Char × Json)) : Option Json :=
  ((fields.filter (fun kv => decide (kv.1 = key))).map Prod.snd).getLast?

def asStrList : List Json → Option (List (List Char))
  | [] => some []
  | .str s :: rest => (asStrList rest).map (fun tl => s :: tl)
  | _ => none

/-- `QueryResponse(**data)`: `data` must be a mapping with a string
`answer` and a list-of-strings `references` (pydantic rejects other
shapes; extra keys are ignored). -/
def validateQR : Json → Except (List Char) QueryResponse
  | .obj fields =>
    match jLookup ("answer".toList) fields, jLookup ("references".toList) fields with
    | some (.str a), some (.arr rs) =>
      match asStrList rs with
      | some refs => .ok ⟨a, refs⟩
      | none => .error ("validation error for QueryResponse: references".toList)
    | _, _ => .error ("validation error for QueryResponse".toList)
  | _ => .error ("argument after ** must be a mapping".toList)

/-- Outcome of the backend call inside `call_llm`'s `try` block. -/
inductive BackendResult where
  | success (text : List Char)
  | connectionError (details : List Char)
  | rateLimitError (details : List Char)
  | statusError (details : List Char)

/-- Direct parse, then the single repair pass. -/
def llmParse (t : List Char) : Except (List Char) Json :=
  match pyJsonLoads t with
  | .ok v => .ok v
  | .error _ => pyJsonLoads (stripToJson t)

/-- `call_llm`: every backend failure becomes an `LLM error: ...`
response, every parse/validation failure a `Parsing error: ...`
response; a successfully parsed and validated payload is returned as
is. -/
def call_llm (outcome : BackendResult) : QueryResponse :=
  match outcome with
  | .connectionError e => ⟨"LLM error: ".toList ++ e, []⟩
  | .rateLimitError e => ⟨"LLM error: ".toList ++ e, []⟩
  | .statusError e => ⟨"LLM error: ".toList ++ e, []⟩
  | .success raw =>
    let text := pyStrip raw
    match llmParse text with
    | .error e => ⟨"Parsing error: ".toList ++ e, []⟩
    | .ok v =>
      match validateQR v with
      | .error e => ⟨"Parsing error: ".toList ++ e, []⟩
      | .ok qr => qr

/-! ## Further auxiliary definitions -/

def ofDigits10 : List Nat → Nat
  | [] => 0
  | d :: ds => d + 10 * ofDigits10 ds

def dchar (d : Nat) : Char := Char.ofNat (48 + d)

/-- A list whose head (if any) is not a decimal digit. -/
def headNotDigit (l : List Char) : Prop :=
  ∀ c, l.head? = some c → isDigitCh c = false

/-! ### Chunker lemmas -/

theorem chunkFromFuel_closed_form (t : List Char) (size : Int) (step : Nat)
    (hstep : 1 ≤ step) :
    ∀ f start, t.length ≤ start + f →
      chunkFromFuel f t size step start =
        (List.range ((t.length - start + step - 1) / step)).map
          (fun k => window t size (start + k * step)) := by
  intro f
  induction f with
  | zero =>
    intro start h
    have hc : (t.length - start + step - 1) / step = 0 := by
      have h0 : t.length - start = 0 := by omega
      rw [h0]
      exact Nat.div_eq_of_lt (by omega)
    simp [chunkFromFuel, hc]
  | succ f ih =>
    intro start h
    by_cases hlt : start < t.length
    · have hrec := ih (start + step) (by omega)
      have hcount : (t.length - start + step - 1) / step =
          (t.length - (start + step) + step - 1) / step + 1 := by
        set a := t.length - start with ha
        have ha1 : 1 ≤ a := by omega
        have hsub : t.length - (start + step) = a - step := by omega
        rw [hsub]
        rcases le_or_lt step a with hc | hc
        · have he : a + step - 1 = (a - step + step - 1) + step := by omega
          rw [he, Nat.add_div_right _ (by omega)]
        · have h1 : a - step = 0 := by omega
          have h2 : (0 + step - 1) / step = 0 := Nat.div_eq_of_lt (by omega)
          have h3 : a + step - 1 = (a - 1) + step := by omega
          rw [h1, h2, h3, Nat.add_div_right _ (by omega),
            Nat.div_eq_of_lt (by omega)]
      rw [hcount]
      simp only [chunkFromFuel, if_pos hlt]
      rw [hrec, List.range_succ_eq_map]
      simp only [List.map_cons, List.map_map]
      congr 1
      · simp
      · apply List.map_congr_left
        intro k _
        simp only [Function.comp_apply]
        congr 1
        rw [Nat.succ_mul]
        omega
    · have h0 : t.length - start = 0 := by omega
      have : (t.length - start + step - 1) / step = 0 := by
        rw [h0]; exact Nat.div_eq_of_lt (by omega)
      simp [chunkFromFuel, hlt, this]

theorem pychunk_ok (t : List Char) (size overlap : Int) (hlt : overlap < size) :
    pychunk t size overlap =
      .ok ((List.range ((t.length + (size - overlap).toNat - 1) / (size - overlap).toNat)).map
        (fun k => window t size (k * (size - overlap).toNat))) := by
  have hstep : 1 ≤ (size - overlap).toNat := by omega
  rw [pychunk, if_neg (by omega)]
  rw [chunkFromFuel_closed_form t size (size - overlap).toNat hstep t.length 0 (by omega)]
  simp

theorem window_length_pos (t : List Char) (size : Int) (start : Nat)
    (hs : start < t.length) (hsize : 1 ≤ size) :
    0 < (window t size start).length := by
  have hm1 : min (t.length : Int) ((start : Int) + size) ≤ (t.length : Int) :=
    min_le_left _ _
  have hm2 : (start : Int) + 1 ≤ min (t.length : Int) ((start : Int) + size) := by
    refine le_min ?_ (by omega)
    exact_mod_cast hs
  simp only [window, pyslice, pyidx, List.length_drop, List.length_take]
  split_ifs with h1 h2 <;> omega

/-! ## Claim C6 -/

/-- C6: `_chunk(text, size, overlap)` fails with the invalid-argument
`ValueError` exactly when `overlap >= size`, for every input text; when
`overlap < size` no such error is raised. -/
theorem c6_overlap_guard (t : List Char) (size overlap : Int) :
    (∃ e, pychunk t size overlap = .error e) ↔ size ≤ overlap := by
  constructor
  · rintro ⟨e, he⟩
    by_contra hc
    rw [pychunk, if_neg hc] at he
    exact Except.noConfusion he
  · intro hle
    exact ⟨_, by rw [pychunk, if_pos hle]⟩

/-! ## Claim C3 -/

/-- C3 counterexample: for `text = "abc"`, `size = 2`, `overlap = 1`
(so `L = 3 > O` and `O < S`), the code produces 3 chunks
`["ab", "bc", "c"]`, while the claimed count
`ceil((L - O) / (S - O)) = (3 - 1 + (2 - 1) - 1) / (2 - 1) = 2`. -/
theorem c3_counterexample :
    pychunk ("abc".toList) 2 1 = .ok ["ab".toList, "bc".toList, "c".toList] ∧
      ¬ ([("ab".toList), ("bc".toList), ("c".toList)].length
          = (3 - 1 + (2 - 1) - 1) / (2 - 1 : Nat)) := by
  exact ⟨rfl, by decide⟩

/-- C3 (amended): for `0 ≤ overlap < size` and nonempty text of length
`L`, `_chunk` returns exactly `ceil(L / (size - overlap))` chunks, the
`k`-th being the window `text[k*(size-overlap) : min(L, k*(size-overlap)+size)]`,
and the windows cover every position of `[0, L)` with no gaps. -/
theorem c3_chunk_count_and_windows (t : List Char) (size overlap : Int)
    (h0 : 0 ≤ overlap) (hlt : overlap < size) (hL : 0 < t.length) :
    pychunk t size overlap =
      .ok ((List.range ((t.length + (size - overlap).toNat - 1) / (size - overlap).toNat)).map
        (fun k => window t size (k * (size - overlap).toNat))) ∧
    (∀ i, i < t.length →
      ∃ k, k < (t.length + (size - overlap).toNat - 1) / (size - overlap).toNat ∧
        k * (size - overlap).toNat ≤ i ∧
        (i : Int) < min (t.length : Int) ((k * (size - overlap).toNat : Nat) + size)) := by
  have hstep : 1 ≤ (size - overlap).toNat := by omega
  refine ⟨pychunk_ok t size overlap hlt, ?_⟩
  intro i hi
  set step := (size - overlap).toNat with hstepdef
  refine ⟨i / step, ?_, Nat.div_mul_le_self i step, ?_⟩
  · have hcount : (t.length + step - 1) / step = (t.length - 1) / step + 1 := by
      have he : t.length + step - 1 = (t.length - 1) + step := by omega
      rw [he, Nat.add_div_right _ (by omega)]
    rw [hcount]
    have : i / step ≤ (t.length - 1) / step := Nat.div_le_div_right (by omega)
    omega
  · have hmod : i % step < step := Nat.mod_lt _ (by omega)
    have hdm : i / step * step + i % step = i := Nat.div_add_mod' i step
    have hi1 : i < i / step * step + step := by omega
    have hcast : ((step : Int)) ≤ size := by
      have : ((size - overlap).toNat : Int) = size - overlap := Int.toNat_of_nonneg (by omega)
      rw [hstepdef, this]; omega
    apply lt_min
    · exact_mod_cast hi
    · have : (i : Int) < (i / step * step : Nat) + (step : Int) := by exact_mod_cast hi1
      omega

/-- Instantiation of `c3_chunk_count_and_windows` at `text = "ab"`,
`size = 2`, `overlap = 0`. -/
theorem c3_chunk_count_and_windows_witness :
    pychunk ("ab".toList) 2 0 =
      .ok ((List.range ((("ab".toList).length + ((2 : Int) - 0).toNat - 1) / ((2 : Int) - 0).toNat)).map
        (fun k => window ("ab".toList) 2 (k * ((2 : Int) - 0).toNat))) ∧
    (∀ i, i < ("ab".toList).length →
      ∃ k, k < (("ab".toList).length + ((2 : Int) - 0).toNat - 1) / ((2 : Int) - 0).toNat ∧
        k * ((2 : Int) - 0).toNat ≤ i ∧
        (i : Int) < min (("ab".toList).length : Int) ((k * ((2 : Int) - 0).toNat : Nat) + 2)) :=
  c3_chunk_count_and_windows ("ab".toList) 2 0 (by norm_num) (by norm_num) (by decide)

/-! ## Claim C10 -/

/-- C10 counterexample: with `size = 0` and `overlap = -1` (so
`overlap < size`) on the one-character text `"a"`, `_chunk` returns a
single empty chunk, so not every produced chunk is a nonempty
substring. -/
theorem c10_counterexample :
    pychunk ("a".toList) 0 (-1) = .ok [([] : List Char)] ∧ ("a".toList) ≠ [] :=
  ⟨rfl, by decide⟩

/-- C10 (amended): for `overlap < size` with `size ≥ 1` (in particular
for the knowledge-base defaults), `_chunk` returns the empty list iff
the text is empty, every produced chunk is nonempty, and a document
with empty cleaned content contributes no entry (and hence no
reference) to the knowledge base. -/
theorem c10_empty_iff_nonempty_chunks (t : List Char) (size overlap : Int)
    (hlt : overlap < size) (hpos : 1 ≤ size) :
    (∃ l, pychunk t size overlap = .ok l ∧ (l = [] ↔ t = []) ∧ ∀ ch ∈ l, ch ≠ []) ∧
    (∀ title rest, kbEntries ((title, ([] : List Char)) :: rest) = kbEntries rest) := by
  have hstep : 1 ≤ (size - overlap).toNat := by omega
  constructor
  · refine ⟨_, pychunk_ok t size overlap hlt, ?_, ?_⟩
    · constructor
      · intro h
        by_contra hne
        have hL : 0 < t.length := List.length_pos.mpr hne
        have hcount : 0 < (t.length + (size - overlap).toNat - 1) / (size - overlap).toNat := by
          have he : t.length + (size - overlap).toNat - 1 =
              (t.length - 1) + (size - overlap).toNat := by omega
          rw [he, Nat.add_div_right _ (by omega)]
          exact Nat.succ_pos _
        rw [List.map_eq_nil_iff, List.range_eq_nil] at h
        omega
      · intro h
        rw [h]
        have : ((List.nil (α := Char)).length + (size - overlap).toNat - 1) /
            (size - overlap).toNat = 0 := by
          simp only [List.length_nil]
          exact Nat.div_eq_of_lt (by omega)
        rw [this]
        rfl
    · intro ch hch
      rw [List.mem_map] at hch
      obtain ⟨k, hk, rfl⟩ := hch
      rw [List.mem_range] at hk
      have hL : 0 < t.length := by
        by_contra h0
        have hz : t.length = 0 := by omega
        rw [hz] at hk
        have : (0 + (size - overlap).toNat - 1) / (size - overlap).toNat = 0 :=
          Nat.div_eq_of_lt (by omega)
        omega
      have hcount : (t.length + (size - overlap).toNat - 1) / (size - overlap).toNat =
          (t.length - 1) / (size - overlap).toNat + 1 := by
        have he : t.length + (size - overlap).toNat - 1 =
            (t.length - 1) + (size - overlap).toNat := by omega
        rw [he, Nat.add_div_right _ (by omega)]
      have hks : k * (size - overlap).toNat < t.length := by
        have h1 : k ≤ (t.length - 1) / (size - overlap).toNat := by omega
        have h2 : k * (size - overlap).toNat ≤
            (t.length - 1) / (size - overlap).toNat * (size - overlap).toNat :=
          Nat.mul_le_mul_right _ h1
        have h3 : (t.length - 1) / (size - overlap).toNat * (size - overlap).toNat ≤
            t.length - 1 := Nat.div_mul_le_self _ _
        omega
      have hpos2 := window_length_pos t size (k * (size - overlap).toNat) hks hpos
      intro hnil
      rw [hnil] at hpos2
      simp at hpos2
  · intro title rest
    rfl

/-- Instantiation of `c10_empty_iff_nonempty_chunks` at `text = "ab"`,
`size = 2`, `overlap = 0`. -/
theorem c10_witness :
    (∃ l, pychunk ("ab".toList) 2 0 = .ok l ∧ (l = [] ↔ ("ab".toList) = []) ∧
      ∀ ch ∈ l, ch ≠ []) ∧
    (∀ title rest, kbEntries ((title, ([] : List Char)) :: rest) = kbEntries rest) :=
  c10_empty_iff_nonempty_chunks ("ab".toList) 2 0 (by norm_num) (by norm_num)

/-! ## Claim C5 -/

/-- C5: a glob matching zero files yields an empty file list, on which
knowledge-base construction fails with the construction-time
`RuntimeError`; and construction never returns a usable instance with
an empty entry list. -/
theorem c5_empty_corpus_fatal :
    (∃ e, kbInit [] = .error e) ∧
    (∀ files out, kbInit files = .ok out → out ≠ []) := by
  constructor
  · exact ⟨_, rfl⟩
  · intro files out h hne
    rw [kbInit] at h
    split_ifs at h with hc
    injection h with h2
    rw [← h2] at hne
    rw [hne] at hc
    simp at hc

/-- Instantiation of `c5_empty_corpus_fatal` on a one-file corpus. -/
theorem c5_witness :
    ([(⟨"hi".toList, "a, chunk 1".toList⟩ : PaperChunk)] : List PaperChunk) ≠ [] :=
  c5_empty_corpus_fatal.2 [(("a.tex".toList), ("hi".toList))] _ rfl

/-! ## Claim C2 -/

/-- C2: evaluation of `retrieve` at the failing input.  With a corpus
of one chunk and `k = 2`, FAISS pads the label row with `-1`; Python's
`entries[-1]` wraps to the last entry, so `retrieve` returns the sole
chunk twice — length `2`, not `min(k, corpus_size) = 1`. -/
theorem c2_overfetch_duplicates :
    kbRetrieve [⟨"t".toList, "r".toList⟩] [0] 2 =
      some [⟨"t".toList, "r".toList⟩, ⟨"t".toList, "r".toList⟩] ∧
    ([(⟨"t".toList, "r".toList⟩ : PaperChunk), ⟨"t".toList, "r".toList⟩].length ≠
      min 2 [(⟨"t".toList, "r".toList⟩ : PaperChunk)].length) :=
  ⟨rfl, by decide⟩

/-! ## Claim C7 -/

/-- C7: on the fenced backend text the repair pass strips the fences
and cuts to the outermost braces, and `call_llm` returns
`QueryResponse(answer="x", references=[])`. -/
theorem c7_fence_repair :
    stripToJson ("```json\n\x7b\"answer\": \"x\", \"references\": []\x7d\n```".toList) =
      ("\x7b\"answer\": \"x\", \"references\": []\x7d".toList) ∧
    call_llm (.success ("```json\n\x7b\"answer\": \"x\", \"references\": []\x7d\n```".toList)) =
      ⟨"x".toList, []⟩ :=
  ⟨rfl, rfl⟩

/-! ## Claim C1 -/

/-- C1: `call_llm` is total, and every failure path yields the
documented fallback: transport/auth/rate-limit failures produce
`LLM error: <details>` with empty references, and parse failures (even
after the repair pass) as well as schema-validation failures produce
`Parsing error: <details>` with empty references. -/
theorem c1_total_with_fallbacks (o : BackendResult) :
    (∀ e, o = .connectionError e ∨ o = .rateLimitError e ∨ o = .statusError e →
      call_llm o = ⟨"LLM error: ".toList ++ e, []⟩) ∧
    (∀ raw e, o = .success raw → llmParse (pyStrip raw) = .error e →
      call_llm o = ⟨"Parsing error: ".toList ++ e, []⟩) ∧
    (∀ raw v e, o = .success raw → llmParse (pyStrip raw) = .ok v →
      validateQR v = .error e →
      call_llm o = ⟨"Parsing error: ".toList ++ e, []⟩) := by
  refine ⟨?_, ?_, ?_⟩
  · rintro e (rfl | rfl | rfl) <;> rfl
  · rintro raw e rfl hp
    simp only [call_llm, hp]
  · rintro raw v e rfl hp hv
    simp only [call_llm, hp, hv]

/-- Instantiations of `c1_total_with_fallbacks`: a connection failure,
an unparsable empty payload, and a parsable payload of the wrong
shape. -/
theorem c1_witness :
    call_llm (.connectionError ("boom".toList)) =
      ⟨"LLM error: ".toList ++ "boom".toList, []⟩ ∧
    call_llm (.success ("".toList)) =
      ⟨"Parsing error: ".toList ++ "Expecting value".toList, []⟩ ∧
    call_llm (.success ("[]".toList)) =
      ⟨"Parsing error: ".toList ++ "argument after ** must be a mapping".toList, []⟩ :=
  ⟨(c1_total_with_fallbacks _).1 _ (Or.inl rfl),
   (c1_total_with_fallbacks _).2.1 _ _ rfl rfl,
   (c1_total_with_fallbacks _).2.2 _ _ _ rfl rfl rfl⟩

/-! ## Claim C9 -/

theorem foldl_append_singleton {α β : Type} (f : α → β) (l : List α) :
    ∀ acc, l.foldl (fun a c => a ++ [f c]) acc = acc ++ l.map f := by
  induction l with
  | nil => intro acc; simp
  | cons x xs ih =>
    intro acc
    simp only [List.foldl_cons, List.map_cons]
    rw [ih]
    simp

theorem joinSep_mem (sep : List Char) (x : List Char) :
    ∀ l : List (List Char), x ∈ l → ∃ s t, joinSep sep l = s ++ x ++ t := by
  intro l
  induction l with
  | nil => intro h; cases h
  | cons y ys ih =>
    intro h
    match ys, h with
    | [], h =>
      have hx : x = y := by
        cases h with
        | head => rfl
        | tail _ h2 => cases h2
      exact ⟨[], [], by simp [joinSep, hx]⟩
    | z :: zs, h =>
      cases h with
      | head => exact ⟨[], sep ++ joinSep sep (z :: zs), by simp [joinSep]⟩
      | tail _ h2 =>
        obtain ⟨s, t, hst⟩ := ih h2
        exact ⟨y ++ sep ++ s, t, by simp [joinSep, hst]⟩

/-- C9: `build_prompt` renders the context block as the retrieved
chunks in input order, each entry carrying its reference and its text
verbatim, followed (in order) by the task statement, the schema
example, and the original query text; in particular every retrieved
chunk's text occurs verbatim in the prompt. -/
theorem c9_prompt_structure (query : List Char) (chunks : List PaperChunk) :
    build_prompt query chunks =
      roleText ++ "\n\n<context>\n".toList ++
        joinSep ("\n\n".toList) (chunks.map ctxLine) ++
        "\n</context>\n\n<task>\n".toList ++ taskText ++ "\n".toList ++ schemaText ++
        "\n</task>\n\n<query>\n".toList ++ query ++ "\n</query>".toList ∧
    (∀ c, c ∈ chunks → ∃ s t, build_prompt query chunks = s ++ c.text ++ t) := by
  have hfold : chunks.foldl (fun a c => a ++ [ctxLine c]) [] = chunks.map ctxLine := by
    simpa using foldl_append_singleton ctxLine chunks []
  have hmain : build_prompt query chunks =
      roleText ++ "\n\n<context>\n".toList ++
        joinSep ("\n\n".toList) (chunks.map ctxLine) ++
        "\n</context>\n\n<task>\n".toList ++ taskText ++ "\n".toList ++ schemaText ++
        "\n</task>\n\n<query>\n".toList ++ query ++ "\n</query>".toList := by
    simp only [build_prompt, hfold]
  refine ⟨hmain, ?_⟩
  intro c hc
  obtain ⟨s, t, hst⟩ :=
    joinSep_mem ("\n\n".toList) (ctxLine c) (chunks.map ctxLine) (List.mem_map_of_mem _ hc)
  refine ⟨roleText ++ "\n\n<context>\n".toList ++ s ++
    ("---\nSOURCE: ".toList ++ c.reference ++ "\nCONTENT:\n\"".toList),
    "\"\n---".toList ++ t ++
      "\n</context>\n\n<task>\n".toList ++ taskText ++ "\n".toList ++ schemaText ++
      "\n</task>\n\n<query>\n".toList ++ query ++ "\n</query>".toList, ?_⟩
  rw [hmain, hst]
  simp [ctxLine, List.append_assoc]

/-- Instantiation of `c9_prompt_structure` on a one-chunk retrieval:
the chunk text occurs verbatim in the prompt. -/
theorem c9_witness :
    ∃ s t, build_prompt ("q".toList) [⟨"T".toList, "R".toList⟩] =
      s ++ "T".toList ++ t :=
  (c9_prompt_structure ("q".toList) [⟨"T".toList, "R".toList⟩]).2
    ⟨"T".toList, "R".toList⟩ (by simp)

/-! ## Claim C4 -/

theorem digitsRevAux_lt10 : ∀ f n d, d ∈ digitsRevAux f n → d < 10 := by
  intro f
  induction f with
  | zero => intro n d h; cases h
  | succ f ih =>
    intro n d h
    rw [digitsRevAux] at h
    split_ifs at h with h0
    · cases h
    · cases h with
      | head => exact Nat.mod_lt _ (by norm_num)
      | tail _ h2 => exact ih _ _ h2

theorem digitsRevAux_val : ∀ f n, n ≤ f → ofDigits10 (digitsRevAux f n) = n := by
  intro f
  induction f with
  | zero =>
    intro n h
    have : n = 0 := by omega
    simp [digitsRevAux, this, ofDigits10]
  | succ f ih =>
    intro n h
    rw [digitsRevAux]
    split_ifs with h0
    · simp [ofDigits10, h0]
    · rw [ofDigits10, ih (n / 10) (by omega)]
      omega

theorem digitsRevAux_ne_nil : ∀ f n, 1 ≤ n → n ≤ f → digitsRevAux f n ≠ [] := by
  intro f n h1 h2
  cases f with
  | zero => omega
  | succ g =>
    rw [digitsRevAux, if_neg (by omega)]
    exact List.cons_ne_nil _ _

theorem dchar_inj : ∀ d, d < 10 → ∀ e, e < 10 → dchar d = dchar e → d = e := by decide

theorem dchar_digit : ∀ d, d < 10 → isDigitCh (dchar d) = true := by decide

theorem map_dchar_inj : ∀ l1 l2 : List Nat, (∀ d ∈ l1, d < 10) → (∀ d ∈ l2, d < 10) →
    l1.map dchar = l2.map dchar → l1 = l2 := by
  intro l1
  induction l1 with
  | nil =>
    intro l2 _ _ h
    cases l2 with
    | nil => rfl
    | cons y ys => simp at h
  | cons x xs ih =>
    intro l2 h1 h2 h
    cases l2 with
    | nil => simp at h
    | cons y ys =>
      simp only [List.map_cons, List.cons.injEq] at h
      have hx : x = y :=
        dchar_inj x (h1 x (List.mem_cons_self _ _)) y (h2 y (List.mem_cons_self _ _)) h.1
      have hxs : xs = ys :=
        ih ys (fun d hd => h1 d (List.mem_cons_of_mem _ hd))
          (fun d hd => h2 d (List.mem_cons_of_mem _ hd)) h.2
      rw [hx, hxs]

theorem dchar_map_eq_singleton_zero (l : List Nat) (hl : ∀ d ∈ l, d < 10)
    (h : l.map dchar = ['0']) : l = [0] := by
  cases l with
  | nil => simp at h
  | cons d ds =>
    cases ds with
    | nil =>
      simp only [List.map_cons, List.map_nil, List.cons.injEq, and_true] at h
      have : d = 0 :=
        dchar_inj d (hl d (List.mem_cons_self _ _)) 0 (by norm_num) (by rw [h]; decide)
      rw [this]
    | cons e es => simp at h

theorem pyStrNat_inj : ∀ a b, pyStrNat a = pyStrNat b → a = b := by
  have key : ∀ n, n ≠ 0 → pyStrNat n = ((digitsRevAux n n).map dchar).reverse := by
    intro n hn
    rw [pyStrNat, if_neg hn]
    rfl
  intro a b h
  by_cases ha : a = 0 <;> by_cases hb : b = 0
  · rw [ha, hb]
  · exfalso
    rw [ha, key b hb] at h
    have h2 : (digitsRevAux b b).map dchar = ['0'] := by
      have := congrArg List.reverse h
      simpa [pyStrNat] using this.symm
    have h3 : digitsRevAux b b = [0] :=
      dchar_map_eq_singleton_zero _ (fun d hd => digitsRevAux_lt10 b b d hd) h2
    have := digitsRevAux_val b b (le_refl _)
    rw [h3] at this
    simp [ofDigits10] at this
    exact hb this.symm
  · exfalso
    rw [hb, key a ha] at h
    have h2 : (digitsRevAux a a).map dchar = ['0'] := by
      have := congrArg List.reverse h
      simpa [pyStrNat] using this
    have h3 : digitsRevAux a a = [0] :=
      dchar_map_eq_singleton_zero _ (fun d hd => digitsRevAux_lt10 a a d hd) h2
    have := digitsRevAux_val a a (le_refl _)
    rw [h3] at this
    simp [ofDigits10] at this
    exact ha this.symm
  · rw [key a ha, key b hb] at h
    have h2 : (digitsRevAux a a).map dchar = (digitsRevAux b b).map dchar := by
      have := congrArg List.reverse h
      simpa using this
    have h3 : digitsRevAux a a = digitsRevAux b b :=
      map_dchar_inj _ _ (fun d hd => digitsRevAux_lt10 a a d hd)
        (fun d hd => digitsRevAux_lt10 b b d hd) h2
    have va := digitsRevAux_val a a (le_refl _)
    have vb := digitsRevAux_val b b (le_refl _)
    rw [h3, vb] at va
    exact va.symm

theorem pyStrNat_digits (n : Nat) : ∀ c ∈ pyStrNat n, isDigitCh c = true := by
  intro c hc
  rw [pyStrNat] at hc
  split_ifs at hc with h0
  · have : c = '0' := by simpa using hc
    rw [this]
    rfl
  · rw [List.mem_reverse, List.mem_map] at hc
    obtain ⟨d, hd, rfl⟩ := hc
    exact dchar_digit d (digitsRevAux_lt10 n n d hd)

theorem pyStrNat_ne_nil (n : Nat) : pyStrNat n ≠ [] := by
  rw [pyStrNat]
  split_ifs with h0
  · exact List.cons_ne_nil _ _
  · intro h
    have h2 : (digitsRevAux n n).map dchar = [] := by
      have := congrArg List.reverse h
      simpa using this
    rw [List.map_eq_nil_iff] at h2
    exact digitsRevAux_ne_nil n n (by omega) (le_refl _) h2

theorem digits_front_cancel : ∀ a1 a2 b1 b2 : List Char,
    (∀ c ∈ a1, isDigitCh c = true) → (∀ c ∈ a2, isDigitCh c = true) →
    headNotDigit b1 → headNotDigit b2 →
    a1 ++ b1 = a2 ++ b2 → a1 = a2 ∧ b1 = b2 := by
  intro a1
  induction a1 with
  | nil =>
    intro a2 b1 b2 _ h2 hb1 _ h
    cases a2 with
    | nil => exact ⟨rfl, h⟩
    | cons y ys =>
      exfalso
      simp only [List.nil_append] at h
      have hy : isDigitCh y = false := hb1 y (by rw [h]; rfl)
      have : isDigitCh y = true := h2 y (List.mem_cons_self _ _)
      rw [this] at hy
      exact Bool.noConfusion hy
  | cons x xs ih =>
    intro a2 b1 b2 h1 h2 hb1 hb2 h
    cases a2 with
    | nil =>
      exfalso
      simp only [List.nil_append] at h
      have hx : isDigitCh x = false := hb2 x (by rw [← h]; rfl)
      have : isDigitCh x = true := h1 x (List.mem_cons_self _ _)
      rw [this] at hx
      exact Bool.noConfusion hx
    | cons y ys =>
      simp only [List.cons_append, List.cons.injEq] at h
      obtain ⟨hxy, hrest⟩ := h
      obtain ⟨he1, he2⟩ := ih ys b1 b2 (fun c hc => h1 c (List.mem_cons_of_mem _ hc))
        (fun c hc => h2 c (List.mem_cons_of_mem _ hc)) hb1 hb2 hrest
      exact ⟨by rw [hxy, he1], he2⟩

theorem mkRef_inj (t1 t2 : List Char) (n1 n2 : Nat) :
    mkRef t1 n1 = mkRef t2 n2 → t1 = t2 ∧ n1 = n2 := by
  intro h
  have h2 : (pyStrNat n1).reverse ++ ((", chunk ".toList).reverse ++ t1.reverse) =
      (pyStrNat n2).reverse ++ ((", chunk ".toList).reverse ++ t2.reverse) := by
    have := congrArg List.reverse h
    simpa [mkRef, List.reverse_append, List.append_assoc] using this
  have hnd : ∀ t : List Char, headNotDigit ((", chunk ".toList).reverse ++ t.reverse) := by
    intro t c hc
    have : c = ' ' := by
      simp only [List.head?] at hc
      exact (Option.some.injEq _ _).mp hc.symm |>.symm ▸ rfl
    rw [this]
    rfl
  obtain ⟨hd, hb⟩ := digits_front_cancel _ _ _ _
    (fun c hc => pyStrNat_digits n1 c (List.mem_reverse.mp hc))
    (fun c hc => pyStrNat_digits n2 c (List.mem_reverse.mp hc))
    (hnd t1) (hnd t2) h2
  constructor
  · have := List.append_cancel_left hb
    exact List.reverse_injective this
  · exact pyStrNat_inj n1 n2 (List.reverse_injective hd)

theorem refChunks_refs (title : List Char) :
    ∀ cs i, (refChunks title i cs).map PaperChunk.reference =
      (List.range cs.length).map (fun k => mkRef title (i + 1 + k)) := by
  intro cs
  induction cs with
  | nil => intro i; rfl
  | cons ch rest ih =>
    intro i
    simp only [refChunks, List.map_cons, List.length_cons]
    rw [ih (i + 1), List.range_succ_eq_map, List.map_cons, List.map_map]
    have h1 : mkRef title (i + 1 + 0) = mkRef title (i + 1) := by norm_num
    have h2 : ((fun k => mkRef title (i + 1 + k)) ∘ Nat.succ) =
        (fun k => mkRef title (i + 1 + 1 + k)) := by
      funext k
      simp only [Function.comp_apply]
      congr 1
      omega
    rw [h1, h2]

theorem refChunks_refs_nodup (title : List Char) (i : Nat) (cs : List (List Char)) :
    ((refChunks title i cs).map PaperChunk.reference).Nodup := by
  rw [refChunks_refs]
  refine List.Nodup.map ?_ (List.nodup_range _)
  intro k k' hkk
  have := (mkRef_inj _ _ _ _ hkk).2
  omega

theorem kbEntries_ref_shape (docs : List (List Char × List Char)) (x : List Char) :
    x ∈ (kbEntries docs).map PaperChunk.reference →
    ∃ t n, x = mkRef t n ∧ t ∈ docs.map Prod.fst := by
  intro hx
  rw [List.mem_map] at hx
  obtain ⟨e, he, rfl⟩ := hx
  rw [kbEntries, List.mem_flatMap] at he
  obtain ⟨d, hd, he2⟩ := he
  have hm : e.reference ∈ (refChunks d.1 0 (kbChunksOf d.2)).map PaperChunk.reference :=
    List.mem_map_of_mem _ he2
  rw [refChunks_refs, List.mem_map] at hm
  obtain ⟨k, _, hk⟩ := hm
  exact ⟨d.1, 0 + 1 + k, hk.symm, List.mem_map_of_mem _ hd⟩

theorem kbEntries_refs_nodup (docs : List (List Char × List Char))
    (h : (docs.map Prod.fst).Nodup) :
    ((kbEntries docs).map PaperChunk.reference).Nodup := by
  induction docs with
  | nil => simp [kbEntries]
  | cons d rest ih =>
    have hsplit : kbEntries (d :: rest) = refChunks d.1 0 (kbChunksOf d.2) ++ kbEntries rest := by
      rw [kbEntries, kbEntries, List.flatMap_cons]
    rw [hsplit, List.map_append, List.nodup_append]
    rw [List.map_cons, List.nodup_cons] at h
    refine ⟨refChunks_refs_nodup _ _ _, ih h.2, ?_⟩
    intro x hx1 hx2
    rw [refChunks_refs, List.mem_map] at hx1
    obtain ⟨k, _, rfl⟩ := hx1
    obtain ⟨t, n, heq, ht⟩ := kbEntries_ref_shape rest _ hx2
    have hdt := (mkRef_inj _ _ _ _ heq).1
    exact h.1 (by rw [hdt]; exact ht)

/-- C4 counterexample: two matched files `d1/a.tex` and `d2/a.tex`
share the derived title `a`, and the corpus's references collide
(`"a, chunk 1"` twice). -/
theorem c4_counterexample :
    ((kbEntries (readDocs
        [("d1/a.tex".toList, "hello".toList),
         ("d2/a.tex".toList, "world".toList)])).map PaperChunk.reference) =
      ["a, chunk 1".toList, "a, chunk 1".toList] ∧
    ¬ (["a, chunk 1".toList, "a, chunk 1".toList] : List (List Char)).Nodup :=
  ⟨rfl, by decide⟩

/-- C4 (amended): the reference strings `"<title>, chunk <i+1>"`
assigned at knowledge-base construction are pairwise distinct provided
the titles derived from the matched files (basename minus extension)
are pairwise distinct; two matched paths with equal derived titles can
collide. -/
theorem c4_unique_references (files : List (List Char × List Char))
    (h : (files.map (fun f => titleOf f.1)).Nodup) :
    ((kbEntries (readDocs files)).map PaperChunk.reference).Nodup := by
  apply kbEntries_refs_nodup
  simpa [readDocs, List.map_map, Function.comp] using h

/-- Instantiation of `c4_unique_references` on a two-file corpus with
distinct titles. -/
theorem c4_witness :
    ((kbEntries (readDocs
        [("a.tex".toList, "hi".toList), ("b.tex".toList, "ho".toList)])).map
      PaperChunk.reference).Nodup :=
  c4_unique_references
    [("a.tex".toList, "hi".toList), ("b.tex".toList, "ho".toList)] (by decide)

/-! ## Claim C8 -/

theorem hasPair_cons (p : Char → Char → Bool) (a : Char) (l : List Char) :
    hasPair p (a :: l) = false ↔
      (∀ b, l.head? = some b → p a b = false) ∧ hasPair p l = false := by
  cases l with
  | nil => simp [hasPair]
  | cons b t =>
    rw [hasPair]
    simp only [Bool.or_eq_false_iff, List.head?_cons]
    constructor
    · rintro ⟨h1, h2⟩
      refine ⟨?_, h2⟩
      intro b' hb
      injection hb with hb
      rw [← hb]
      exact h1
    · rintro ⟨h1, h2⟩
      exact ⟨h1 b rfl, h2⟩

theorem hasPair_append (p : Char → Char → Bool) :
    ∀ s t : List Char, hasPair p (s ++ t) = false →
      hasPair p s = false ∧ hasPair p t = false := by
  intro s
  induction s with
  | nil => intro t h; exact ⟨rfl, h⟩
  | cons a s' ih =>
    intro t h
    rw [List.cons_append, hasPair_cons] at h
    obtain ⟨hh, ht⟩ := h
    obtain ⟨h1, h2⟩ := ih t ht
    refine ⟨?_, h2⟩
    rw [hasPair_cons]
    refine ⟨?_, h1⟩
    intro b hb
    apply hh
    cases s' with
    | nil => exact Option.noConfusion hb
    | cons x xs => simpa using hb

theorem hasPair_dropWhile (p : Char → Char → Bool) (q : Char → Bool)
    (l : List Char) (h : hasPair p l = false) :
    hasPair p (l.dropWhile q) = false := by
  have hsplit := List.takeWhile_append_dropWhile q (l := l)
  rw [← hsplit] at h
  exact (hasPair_append p _ _ h).2

theorem head_dropWhile_not (p : Char → Bool) :
    ∀ l : List Char, ∀ c, (l.dropWhile p).head? = some c → p c = false := by
  intro l
  induction l with
  | nil => intro c h; exact Option.noConfusion h
  | cons a t ih =>
    intro c h
    rw [List.dropWhile_cons] at h
    split_ifs at h with hp
    · exact ih c h
    · rw [List.head?_cons] at h
      injection h with h2
      rw [← h2]
      exact Bool.of_not_eq_true hp

/-! ### The command-removal passes -/

theorem matchCmdBrace_sublist (cs out : List Char)
    (h : matchCmdBrace cs = some out) : out.Sublist cs := by
  simp only [matchCmdBrace] at h
  split_ifs at h with h1 h2 h3 <;>
    first
      | exact Option.noConfusion h
      | (injection h with h4
         rw [← h4]
         exact (((List.tail_sublist _).trans (List.dropWhile_sublist _)).trans
           (List.tail_sublist _)).trans (List.dropWhile_sublist _))

theorem matchCmd_sublist (cs out : List Char)
    (h : matchCmd cs = some out) : out.Sublist cs := by
  simp only [matchCmd] at h
  split_ifs at h with h1 h2 <;>
    first
      | exact Option.noConfusion h
      | (injection h with h3
         rw [← h3]
         exact (List.tail_sublist _).trans (List.dropWhile_sublist _))
      | (injection h with h3
         rw [← h3]
         exact List.dropWhile_sublist _)

theorem mem_subCmdBrace : ∀ f l c, c ∈ subCmdBrace f l → c ∈ l := by
  intro f
  induction f with
  | zero => intro l c h; cases h
  | succ f ih =>
    intro l c h
    cases l with
    | nil => cases h
    | cons a rest =>
      rw [subCmdBrace] at h
      split_ifs at h with ha
      · cases hm : matchCmdBrace rest with
        | some rest2 =>
          rw [hm] at h
          have := ih rest2 c h
          exact List.mem_cons_of_mem _ ((matchCmdBrace_sublist rest rest2 hm).subset this)
        | none =>
          rw [hm] at h
          cases h with
          | head => exact List.mem_cons_self _ _
          | tail _ h2 => exact List.mem_cons_of_mem _ (ih rest c h2)
      · cases h with
        | head => exact List.mem_cons_self _ _
        | tail _ h2 => exact List.mem_cons_of_mem _ (ih rest c h2)

/-- If the input contains no star, a successful `matchCmd` consumes
exactly the maximal letter run. -/
theorem matchCmd_no_star (cs out : List Char) (h : matchCmd cs = some out)
    (hs : '*' ∉ cs) : out = cs.dropWhile Char.isAlpha := by
  simp only [matchCmd] at h
  split_ifs at h with h1 h2
  · exfalso
    have hm : '*' ∈ cs.dropWhile Char.isAlpha := by
      cases hr : cs.dropWhile Char.isAlpha with
      | nil => rw [hr] at h2; exact Option.noConfusion h2
      | cons x xs =>
        rw [hr, List.head?_cons] at h2
        injection h2 with h3
        rw [h3]
        exact List.mem_cons_self _ _
    exact hs ((List.dropWhile_sublist _).subset hm)
  · injection h with h3
    exact h3.symm

/-- If the output of the command-removal pass starts with a letter,
so did its input (no-star inputs). -/
theorem subCmd_head_alpha : ∀ f l, '*' ∉ l → l.length ≤ f →
    ∀ h, (subCmd f l).head? = some h → h.isAlpha = true → l.head? = some h := by
  intro f
  induction f with
  | zero =>
    intro l hs hf h hh _
    have : l = [] := List.length_eq_zero.mp (by omega)
    rw [this] at hh ⊢
    exact Option.noConfusion hh
  | succ f ih =>
    intro l hs hf h hh halpha
    cases l with
    | nil => exact Option.noConfusion hh
    | cons a rest =>
      rw [subCmd] at hh
      split_ifs at hh with ha
      · cases hm : matchCmd rest with
        | some rest2 =>
          rw [hm] at hh
          exfalso
          have hs2 : '*' ∉ rest2 := fun hx =>
            hs (List.mem_cons_of_mem _ ((matchCmd_sublist rest rest2 hm).subset hx))
          have hf2 : rest2.length ≤ f := by
            have := (matchCmd_sublist rest rest2 hm).length_le
            simp only [List.length_cons] at hf
            omega
          have hhead := ih rest2 hs2 hf2 h hh halpha
          have hr2 : rest2 = rest.dropWhile Char.isAlpha :=
            matchCmd_no_star rest rest2 hm (fun hx => hs (List.mem_cons_of_mem _ hx))
          rw [hr2] at hhead
          have := head_dropWhile_not Char.isAlpha rest h hhead
          rw [halpha] at this
          exact Bool.noConfusion this
        | none =>
          rw [hm, List.head?_cons] at hh
          exact hh
      · rw [List.head?_cons] at hh
        exact hh

/-- The command-removal pass leaves no backslash-letter adjacency when
the input contains no star. -/
theorem subCmd_noCtrl : ∀ f l, '*' ∉ l → l.length ≤ f →
    hasPair isCtrlPair (subCmd f l) = false := by
  intro f
  induction f with
  | zero => intro l _ _; rfl
  | succ f ih =>
    intro l hs hf
    cases l with
    | nil => rfl
    | cons a rest =>
      have hsrest : '*' ∉ rest := fun hx => hs (List.mem_cons_of_mem _ hx)
      have hfrest : rest.length ≤ f := by
        simp only [List.length_cons] at hf
        omega
      rw [subCmd]
      split_ifs with ha
      · cases hm : matchCmd rest with
        | some rest2 =>
          have hs2 : '*' ∉ rest2 := fun hx =>
            hsrest ((matchCmd_sublist rest rest2 hm).subset hx)
          have hf2 : rest2.length ≤ f := by
            have := (matchCmd_sublist rest rest2 hm).length_le
            omega
          exact ih rest2 hs2 hf2
        | none =>
          rw [hasPair_cons]
          refine ⟨?_, ih rest hsrest hfrest⟩
          intro b hb
          by_cases hba : b.isAlpha = true
          · have := subCmd_head_alpha f rest hsrest hfrest b hb hba
            -- a = '\\' and matchCmd rest = none means rest does not
            -- start with a letter
            exfalso
            simp only [matchCmd] at hm
            split_ifs at hm with h1 h2 <;>
              first
                | exact Option.noConfusion hm
                | (rw [this] at h1
                   simp [hba] at h1)
          · rw [isCtrlPair]
            simp [hba]
      · rw [hasPair_cons]
        refine ⟨?_, ih rest hsrest hfrest⟩
        intro b _
        rw [isCtrlPair]
        simp only [Bool.and_eq_false_iff]
        left
        simpa using ha

/-! ### The comment-removal pass -/

theorem subComment_no_pct : ∀ f l, '%' ∉ subComment f l := by
  intro f
  induction f with
  | zero => intro l h; cases h
  | succ f ih =>
    intro l
    cases l with
    | nil => intro h; cases h
    | cons a rest =>
      rw [subComment]
      split_ifs with ha
      · exact ih _
      · intro h
        cases h with
        | head => exact ha rfl
        | tail _ h2 => exact ih rest h2

theorem subComment_head : ∀ f l h, (subComment f l).head? = some h →
    h = '\n' ∨ l.head? = some h := by
  intro f
  induction f with
  | zero => intro l h hh; exact Option.noConfusion hh
  | succ f ih =>
    intro l h hh
    cases l with
    | nil => exact Option.noConfusion hh
    | cons a rest =>
      rw [subComment] at hh
      split_ifs at hh with ha
      · rcases ih _ _ hh with h1 | h1
        · exact Or.inl h1
        · left
          have := head_dropWhile_not (fun d => !(d = '\n')) rest h h1
          simpa using this
      · right
        exact hh

theorem subComment_noCtrl : ∀ f l, hasPair isCtrlPair l = false →
    hasPair isCtrlPair (subComment f l) = false := by
  intro f
  induction f with
  | zero => intro l _; rfl
  | succ f ih =>
    intro l hl
    cases l with
    | nil => rfl
    | cons a rest =>
      rw [hasPair_cons] at hl
      rw [subComment]
      split_ifs with ha
      · exact ih _ (hasPair_dropWhile _ _ _ hl.2)
      · rw [hasPair_cons]
        refine ⟨?_, ih rest hl.2⟩
        intro b hb
        rcases subComment_head f rest b hb with h1 | h1
        · rw [h1, isCtrlPair]
          have hnl : '\n'.isAlpha = false := by decide
          rw [hnl, Bool.and_false]
        · exact hl.1 b h1

/-! ### The whitespace-collapsing pass -/

theorem subWs_head : ∀ f l h, (subWs f l).head? = some h →
    h = ' ' ∨ l.head? = some h := by
  intro f
  cases f with
  | zero => intro l h hh; exact Option.noConfusion hh
  | succ f =>
    intro l h hh
    cases l with
    | nil => exact Option.noConfusion hh
    | cons a rest =>
      rw [subWs] at hh
      split_ifs at hh with ha
      · rw [List.head?_cons] at hh
        injection hh with h2
        exact Or.inl h2.symm
      · right
        exact hh

theorem subWs_head_ws : ∀ f l h, (subWs f l).head? = some h →
    pyIsSpace h = true → ∃ h2, l.head? = some h2 ∧ pyIsSpace h2 = true := by
  intro f
  cases f with
  | zero => intro l h hh _; exact Option.noConfusion hh
  | succ f =>
    intro l h hh hws
    cases l with
    | nil => exact Option.noConfusion hh
    | cons a rest =>
      rw [subWs] at hh
      split_ifs at hh with ha
      · exact ⟨a, rfl, ha⟩
      · rw [List.head?_cons] at hh
        injection hh with h2
        rw [← h2] at hws
        exact absurd hws ha

theorem subWs_noWsPair : ∀ f l, hasPair isWsPair (subWs f l) = false := by
  intro f
  induction f with
  | zero => intro l; rfl
  | succ f ih =>
    intro l
    cases l with
    | nil => rfl
    | cons a rest =>
      rw [subWs]
      split_ifs with ha
      · rw [hasPair_cons]
        refine ⟨?_, ih _⟩
        intro b hb
        rw [isWsPair, Bool.and_eq_false_iff]
        right
        by_contra hbs
        have hbs2 : pyIsSpace b = true := by
          cases hx : pyIsSpace b
          · exact absurd rfl (by rw [hx] at hbs; exact hbs)
          · rfl
        obtain ⟨h2, hh2, hw2⟩ := subWs_head_ws f _ b hb hbs2
        have := head_dropWhile_not pyIsSpace rest h2 hh2
        rw [hw2] at this
        exact Bool.noConfusion this
      · rw [hasPair_cons]
        refine ⟨?_, ih _⟩
        intro b _
        rw [isWsPair, Bool.and_eq_false_iff]
        left
        cases hx : pyIsSpace a
        · rfl
        · exact absurd hx ha

theorem subWs_noCtrl : ∀ f l, hasPair isCtrlPair l = false →
    hasPair isCtrlPair (subWs f l) = false := by
  intro f
  induction f with
  | zero => intro l _; rfl
  | succ f ih =>
    intro l hl
    cases l with
    | nil => rfl
    | cons a rest =>
      rw [hasPair_cons] at hl
      rw [subWs]
      split_ifs with ha
      · rw [hasPair_cons]
        refine ⟨?_, ih _ (hasPair_dropWhile _ _ _ hl.2)⟩
        intro b _
        rw [isCtrlPair, Bool.and_eq_false_iff]
        left
        decide
      · rw [hasPair_cons]
        refine ⟨?_, ih rest hl.2⟩
        intro b hb
        rcases subWs_head f rest b hb with h1 | h1
        · rw [h1, isCtrlPair]
          have hsp : ' '.isAlpha = false := by decide
          rw [hsp, Bool.and_false]
        · exact hl.1 b h1

theorem mem_subWs : ∀ f l c, c ∈ subWs f l → c ∈ l ∨ c = ' ' := by
  intro f
  induction f with
  | zero => intro l c h; cases h
  | succ f ih =>
    intro l c h
    cases l with
    | nil => cases h
    | cons a rest =>
      rw [subWs] at h
      split_ifs at h with ha
      · cases h with
        | head => exact Or.inr rfl
        | tail _ h2 =>
          rcases ih _ c h2 with h3 | h3
          · exact Or.inl (List.mem_cons_of_mem _ ((List.dropWhile_sublist _).subset h3))
          · exact Or.inr h3
      · cases h with
        | head => exact Or.inl (List.mem_cons_self _ _)
        | tail _ h2 =>
          rcases ih _ c h2 with h3 | h3
          · exact Or.inl (List.mem_cons_of_mem _ h3)
          · exact Or.inr h3

/-! ### Stripping and assembly -/

theorem pyStrip_decomp (l : List Char) : ∃ s t, l = s ++ pyStrip l ++ t := by
  have h1 : l.takeWhile pyIsSpace ++ l.dropWhile pyIsSpace = l :=
    List.takeWhile_append_dropWhile _ _
  set m := l.dropWhile pyIsSpace with hm
  have h2 : m.reverse.takeWhile pyIsSpace ++ m.reverse.dropWhile pyIsSpace = m.reverse :=
    List.takeWhile_append_dropWhile _ _
  have h3 := congrArg List.reverse h2
  rw [List.reverse_append, List.reverse_reverse] at h3
  refine ⟨l.takeWhile pyIsSpace, (m.reverse.takeWhile pyIsSpace).reverse, ?_⟩
  rw [pyStrip, ← hm, List.append_assoc, h3, h1]

theorem hasPair_pyStrip (p : Char → Char → Bool) (l : List Char)
    (h : hasPair p l = false) : hasPair p (pyStrip l) = false := by
  obtain ⟨s, t, hst⟩ := pyStrip_decomp l
  rw [hst] at h
  have h1 := (hasPair_append p _ t h).1
  exact (hasPair_append p s _ h1).2

theorem mem_pyStrip (l : List Char) (c : Char) (h : c ∈ pyStrip l) : c ∈ l := by
  obtain ⟨s, t, hst⟩ := pyStrip_decomp l
  rw [hst]
  simp [h]

theorem pyStrip_head (l : List Char) (c : Char)
    (h : (pyStrip l).head? = some c) : pyIsSpace c = false := by
  set m := l.dropWhile pyIsSpace with hm
  have h2 : m.reverse.takeWhile pyIsSpace ++ m.reverse.dropWhile pyIsSpace = m.reverse :=
    List.takeWhile_append_dropWhile _ _
  have h3 := congrArg List.reverse h2
  rw [List.reverse_append, List.reverse_reverse] at h3
  have hps : pyStrip l = (m.reverse.dropWhile pyIsSpace).reverse := by
    rw [pyStrip, ← hm]
  rw [hps] at h
  cases hx : (m.reverse.dropWhile pyIsSpace).reverse with
  | nil => rw [hx] at h; exact Option.noConfusion h
  | cons x xs =>
    rw [hx, List.head?_cons] at h
    injection h with h4
    rw [hx] at h3
    have hmx : m.head? = some x := by rw [← h3]; rfl
    have hlx : (l.dropWhile pyIsSpace).head? = some x := by rw [← hm]; exact hmx
    rw [← h4]
    exact head_dropWhile_not pyIsSpace l x hlx

theorem pyStrip_last (l : List Char) (c : Char)
    (h : (pyStrip l).getLast? = some c) : pyIsSpace c = false := by
  rw [pyStrip, List.getLast?_reverse] at h
  exact head_dropWhile_not pyIsSpace _ c h

/-- C8 counterexample: on the raw text `\\a*b`, the second cleaning
pass removes the starred command `\a*`, splicing the preceding
backslash onto `b`; the cleaned text `\b` still contains a
control-sequence token. -/
theorem c8_counterexample :
    cleanText ("\\\\a*b".toList) = "\\b".toList ∧
    hasPair isCtrlPair (cleanText ("\\\\a*b".toList)) = true :=
  ⟨rfl, rfl⟩

/-- C8 (amended): for every raw document text, the cleaned text
contains no `%`, no run of two or more consecutive whitespace
characters, and no leading or trailing whitespace; and when the raw
text contains no `*`, it also contains no control-sequence token
(a removed starred command can splice a backslash onto following
letters, so star-carrying inputs are excluded from that conjunct). -/
theorem c8_cleaning (raw : List Char) :
    ('*' ∉ raw → hasPair isCtrlPair (cleanText raw) = false) ∧
    '%' ∉ cleanText raw ∧
    hasPair isWsPair (cleanText raw) = false ∧
    (∀ c, (cleanText raw).head? = some c → pyIsSpace c = false) ∧
    (∀ c, (cleanText raw).getLast? = some c → pyIsSpace c = false) := by
  set a := subCmdBrace raw.length raw with hadef
  set b := subCmd a.length a with hbdef
  set c0 := subComment b.length b with hcdef
  set d := subWs c0.length c0 with hddef
  have hclean : cleanText raw = pyStrip d := rfl
  rw [hclean]
  refine ⟨?_, ?_, ?_, ?_, ?_⟩
  · intro hstar
    have hsa : '*' ∉ a := fun hx => hstar (mem_subCmdBrace _ _ _ hx)
    have hb : hasPair isCtrlPair b = false := subCmd_noCtrl a.length a hsa (le_refl _)
    have hc : hasPair isCtrlPair c0 = false := subComment_noCtrl _ _ hb
    have hd : hasPair isCtrlPair d = false := subWs_noCtrl _ _ hc
    exact hasPair_pyStrip _ _ hd
  · intro hx
    have hx2 := mem_pyStrip d '%' hx
    rcases mem_subWs _ _ _ hx2 with h1 | h1
    · exact absurd h1 (subComment_no_pct _ _)
    · exact absurd h1 (by decide)
  · exact hasPair_pyStrip _ _ (subWs_noWsPair _ _)
  · intro ch hch
    exact pyStrip_head d ch hch
  · intro ch hch
    exact pyStrip_last d ch hch

/-- Instantiation of `c8_cleaning` on a star-free raw document. -/
theorem c8_witness :
    hasPair isCtrlPair (cleanText ("a \\cmd% zz\n b".toList)) = false ∧
    '%' ∉ cleanText ("a \\cmd% zz\n b".toList) ∧
    hasPair isWsPair (cleanText ("a \\cmd% zz\n b".toList)) = false ∧
    pyIsSpace 'a' = false ∧ pyIsSpace 'b' = false :=
  ⟨(c8_cleaning ("a \\cmd% zz\n b".toList)).1 (by decide),
   (c8_cleaning ("a \\cmd% zz\n b".toList)).2.1,
   (c8_cleaning ("a \\cmd% zz\n b".toList)).2.2.1,
   (c8_cleaning ("a \\cmd% zz\n b".toList)).2.2.2.1 'a' rfl,
   (c8_cleaning ("a \\cmd% zz\n b".toList)).2.2.2.2 'b' rfl⟩
